import Mathlib

/-!
Shallow embedding of the catalog pricing-and-aggregation engine of the
`d0018e-project` marketplace repository, together with proofs checking the
natural-language specification against the code.

Conventions of the embedding:
* Rust `rust_decimal::Decimal` values are modelled as `ℚ`.
* Rust `u32` / `NonZeroU32` values are modelled as `ℕ`, with positivity carried
  as explicit hypotheses where the source type guarantees it; all subtractions
  proved exact stay inside the represented range.
* Rust `i32` / `i64` values are modelled as `ℤ`.
* Fallible Rust code (`Result`, panics) is modelled with `Except` / `Option`.
-/

namespace Shop

/-- Backing implementation of `Deal` (`src/database/types.rs`, enum `DealImpl`):
a flat sale price, a "take N pay for M" batch, or a "take N pay X" batch. -/
inductive DealImpl : Type where
  | Discount (new_price : ℚ)
  | Batch (take pay_for : ℕ)
  | BatchPrice (take : ℕ) (pay : ℚ)
deriving DecidableEq

/-- Details on the discount of a special offer (`pub struct Deal(DealImpl)`),
a transparent wrapper around `DealImpl`. -/
abbrev Deal : Type := DealImpl

/-- Errors created by methods of `Deal` (`enum DealError`). -/
inductive DealError : Type where
  | ZeroPrice
  | OutOfRange
  | InvalidVariant
  | NoDiscount
deriving DecidableEq

namespace Deal

/-- `Deal::free()`: a deal offering free samples, `Discount { new_price: 0 }`. -/
def free : Deal := .Discount 0

/-- `u32::try_from(n).ok().and_then(NonZeroU32::new)` on an `i32` value:
succeeds exactly for positive values (every non-negative `i32` fits in `u32`). -/
def toNonZeroU32 (n : ℤ) : Option ℕ :=
  if 0 < n then some n.toNat else none

/-- `Deal::try_from_repr(new_price, quantity1, quantity2, base_price)`:
construct a `Deal` from the three-column database representation, validating
against `base_price`, with `(None, None, None)` meaning no active offer. -/
def try_from_repr (new_price : Option ℚ) (quantity1 quantity2 : Option ℤ)
    (base_price : ℚ) : Except DealError (Option Deal) :=
  if base_price ≤ 0 then .error .ZeroPrice
  else
    match new_price, quantity1, quantity2 with
    | some np, none, none =>
        if np < 0 then .error .OutOfRange
        else if base_price ≤ np then .error .NoDiscount
        else .ok (some (.Discount np))
    | none, some take, some pay_for =>
        if take ≤ pay_for then .error .NoDiscount
        else
          match toNonZeroU32 take, toNonZeroU32 pay_for with
          | some t, some p => .ok (some (.Batch t p))
          | _, _ => .error .OutOfRange
    | some pay, some take, none =>
        if base_price ≤ pay * take then .error .NoDiscount
        else
          match toNonZeroU32 take with
          | some t =>
              .ok (some (if t = 1 then .Discount pay else .BatchPrice t pay))
          | none => .error .OutOfRange
    | none, none, none => .ok none
    | _, _, _ => .error .InvalidVariant

/-- The `i32::MAX` bound checked by `database_repr` before storing a quantity. -/
def i32Max : ℕ := 2147483647

/-- `Deal::database_repr(self)`: convert a `Deal` back into the three database
columns, or `None` if either quantity exceeds `i32::MAX`. -/
def database_repr (d : Deal) : Option (Option ℚ × Option ℤ × Option ℤ) :=
  match d with
  | .Discount np => some (some np, none, none)
  | .Batch take pay_for =>
      if take ≤ i32Max ∧ pay_for ≤ i32Max then
        some (none, some (take : ℤ), some (pay_for : ℤ))
      else none
  | .BatchPrice take pay =>
      if take ≤ i32Max then some (some pay, some (take : ℤ), none) else none

/-- `Deal::average_discount(self, base_price)`: the discount as an average
fraction per unit. -/
def average_discount (d : Deal) (base_price : ℚ) : ℚ :=
  match d with
  | .Discount np => 1 - np / base_price
  | .Batch take pay_for => 1 - (pay_for : ℚ) / (take : ℚ)
  | .BatchPrice take pay => 1 - pay / (base_price * (take : ℚ))

/-- The default usage cap `limit.unwrap_or(u32::MAX)`. -/
def u32Max : ℕ := 4294967295

/-- `Deal::discounted_price(self, units, price_per_unit, limit)`: the final
price of `units` units under this deal together with the number of times the
offer was applied. `units` models the `NonZeroU32` argument. -/
def discounted_price (d : Deal) (units : ℕ) (price_per_unit : ℚ)
    (limit : Option ℕ) : ℚ × ℕ :=
  let lim := limit.getD u32Max
  match d with
  | .Discount np =>
      let uses := min lim units
      ((uses : ℚ) * (np - price_per_unit) + price_per_unit * (units : ℚ), uses)
  | .Batch take pay_for =>
      let uses := min lim (units / take)
      (price_per_unit * ((units - uses * (take - pay_for) : ℕ) : ℚ), uses)
  | .BatchPrice take pay =>
      let uses := min lim (units / take)
      (pay * (uses : ℚ) + price_per_unit * ((units - take * uses : ℕ) : ℚ), uses)

end Deal

/-- Quantity of a product, possibly along with a unit (`struct Amount`).
`quantity` models the `Decimal` field; `unit` the optional unit string. -/
structure Amount : Type where
  quantity : ℚ
  unit : Option String
deriving DecidableEq

namespace Amount

/-- `Amount::new(quantity, unit)`: rejects negative quantities, and unit-less
quantities that are not integers (`Decimal::is_integer`). -/
def new (quantity : ℚ) (unit : Option String) : Option Amount :=
  if quantity < 0 then none
  else if unit.isSome then some ⟨quantity, unit⟩
  else if quantity.den = 1 then some ⟨quantity, none⟩
  else none

/-- `Amount::discrete(quantity)`: a discrete amount from a `u32`. -/
def discrete (quantity : ℕ) : Amount := ⟨(quantity : ℚ), none⟩

/-- `Amount::with_unit(quantity, unit)`: a `const fn` performing no
validation whatsoever. -/
def with_unit (quantity : ℚ) (unit : String) : Amount := ⟨quantity, some unit⟩

end Amount

/-- One row of the `categories` table as fetched by `category_trees`
(`struct CategoryRepr` in `src/database/categories.rs`), with fields in the
declaration order `(parent, name, id)` that the derived row ordering compares. -/
structure CategoryRepr : Type where
  parent : Option ℕ
  name : String
  id : ℕ
deriving DecidableEq

/-- A category with its subcategories (`struct CategoryTree`). -/
inductive CategoryTree : Type where
  | mk (id : ℕ) (name : String) (subcategories : List CategoryTree)

/-- The `id` field of a `CategoryTree`. -/
def CategoryTree.id : CategoryTree → ℕ
  | .mk i _ _ => i

/-- The `name` field of a `CategoryTree`. -/
def CategoryTree.name : CategoryTree → String
  | .mk _ n _ => n

/-- The `subcategories` field of a `CategoryTree`. -/
def CategoryTree.subcategories : CategoryTree → List CategoryTree
  | .mk _ _ s => s

/-- Model of the `HashMap<Id, Vec<_>>` bucket multimap used by the tree
builders. The Rust code only ever performs keyed `entry`/`remove` operations
on it (never iteration), so a lookup function is an observationally faithful
model. -/
def BucketMap (α : Type) : Type := ℕ → Option (List α)

/-- `by_parent.entry(k).or_default().push(v)`: append `v` to bucket `k`,
creating the bucket if missing. -/
def mapInsert {α : Type} (m : BucketMap α) (k : ℕ) (v : α) : BucketMap α :=
  fun k2 => if k2 = k then some ((m k).getD [] ++ [v]) else m k2

/-- `by_parent.remove(&k)`: the removed bucket, if any, together with the
remaining map. -/
def mapRemove {α : Type} (m : BucketMap α) (k : ℕ) : Option (List α) × BucketMap α :=
  (m k, fun k2 => if k2 = k then none else m k2)

/-- `build_tree(id, name, by_parent)` from `src/database/categories.rs`:
pop this node's bucket and recursively attach its children, threading the
shrinking map left to right exactly as the Rust `&mut` map is threaded
through `bucket.into_iter().map(..).collect()`. The `fuel` argument makes
the recursion structural; each nesting level consumes one unit, and
`category_trees` supplies more fuel than the input has rows, so the
zero-fuel branch is unreachable from its calls. -/
def build_tree (fuel : ℕ) (id : ℕ) (name : String) (by_parent : BucketMap (ℕ × String)) :
    CategoryTree × BucketMap (ℕ × String) :=
  match fuel with
  | 0 => (.mk id name [], by_parent)
  | fuel' + 1 =>
      match mapRemove by_parent id with
      | (none, _) => (.mk id name [], by_parent)
      | (some bucket, m2) =>
          let r := bucket.foldl
            (fun acc c =>
              let r1 := build_tree fuel' c.1 c.2 acc.2
              (acc.1 ++ [r1.1], r1.2))
            ([], m2)
          (.mk id name r.1, r.2)

/-- The sibling loop of `build_tree`: build each child in order, threading
the bucket map. -/
def build_forest (fuel : ℕ) (children : List (ℕ × String))
    (by_parent : BucketMap (ℕ × String)) :
    List CategoryTree × BucketMap (ℕ × String) :=
  children.foldl
    (fun acc c =>
      let r1 := build_tree fuel c.1 c.2 acc.2
      (acc.1 ++ [r1.1], r1.2))
    ([], by_parent)

/-- The pure core of `category_trees()` (`src/database/categories.rs`): the
leading parentless rows become roots in input order, every remaining row is
bucketed under its parent id in input order, and the forest is assembled by
popping buckets. Returns `none` when a parentless row occurs after a parented
one, where the Rust code would panic on `parent.unwrap()`. The SQL layer
feeds this function rows ordered by `(parent NULLS FIRST, name)`. -/
def category_trees (rows : List CategoryRepr) : Option (List CategoryTree) :=
  let roots := (rows.takeWhile fun r => r.parent.isNone).map fun r => (r.id, r.name)
  let rest := rows.dropWhile fun r => r.parent.isNone
  if rest.all fun r => r.parent.isSome then
    let by_parent := rest.foldl
      (fun m r => mapInsert m (r.parent.getD 0) (r.id, r.name)) fun _ => none
    some (build_forest (rows.length + 1) roots by_parent).1
  else none

/-- Strict comparison of optional parent ids: the derived `Option` ordering
used by the category row sort, where a missing parent sorts first. -/
def parent_lt (a b : Option ℕ) : Prop :=
  match a, b with
  | none, some _ => True
  | some x, some y => x < y
  | _, _ => False

instance (a b : Option ℕ) : Decidable (parent_lt a b) := by
  unfold parent_lt
  rcases a with _ | x <;> rcases b with _ | y <;> exact inferInstance

/-- The `(parent NULLS FIRST, name)` ordering the SQL query imposes on
category rows, which the derived `PartialOrd` of `CategoryRepr` asserts in
the source's `debug_assert!(categories.is_sorted())`. -/
def repr_le (a b : CategoryRepr) : Prop :=
  parent_lt a.parent b.parent ∨ (a.parent = b.parent ∧ a.name ≤ b.name)

instance : DecidableRel repr_le := fun a b => by
  unfold repr_le
  exact inferInstance

/-- A category tree whose subcategory list, and recursively every nested
subcategory list, is sorted by name. -/
inductive TreeSorted : CategoryTree → Prop where
  | mk : ∀ (i : ℕ) (n : String) (subs : List CategoryTree),
      subs.Pairwise (fun a b => a.name ≤ b.name) →
      (∀ t ∈ subs, TreeSorted t) → TreeSorted (.mk i n subs)

/-- Modelled from the spec: one comment row of the batch query feeding the
(unimplemented, `todo!()`) comment-tree construction in `product_reviews`,
restricted to the fields §4.3 sorts and groups by. The remaining columns
(author, content, timestamps of update, votes of the viewer) do not affect
tree shape or order. -/
structure CommentRepr : Type where
  id : ℕ
  parent : Option ℕ
  sum_votes : ℤ
  created_at : ℕ
deriving DecidableEq

/-- A comment with its replies (`struct CommentTree` in
`src/database/reviews.rs`), restricted to the fields the sorting assertion
`comments_sorted` inspects. -/
inductive CommentTree : Type where
  | mk (id : ℕ) (sum_votes : ℤ) (created_at : ℕ) (replies : List CommentTree)

/-- The `id` field of a `CommentTree`. -/
def CommentTree.id : CommentTree → ℕ
  | .mk i _ _ _ => i

/-- The `sum_votes` field of a `CommentTree`. -/
def CommentTree.sum_votes : CommentTree → ℤ
  | .mk _ v _ _ => v

/-- The `created_at` field of a `CommentTree`. -/
def CommentTree.created_at : CommentTree → ℕ
  | .mk _ _ c _ => c

/-- The `replies` field of a `CommentTree`. -/
def CommentTree.replies : CommentTree → List CommentTree
  | .mk _ _ _ r => r

/-- Modelled from the spec: the §4.3 sibling order on comment rows,
descending `vote_sum` then ascending creation time. -/
def row_le (a b : CommentRepr) : Prop :=
  b.sum_votes < a.sum_votes ∨ (a.sum_votes = b.sum_votes ∧ a.created_at ≤ b.created_at)

instance : DecidableRel row_le := fun a b => by
  unfold row_le
  exact inferInstance

instance : IsTotal CommentRepr row_le := by
  constructor
  intro a b
  unfold row_le
  omega

instance : IsTrans CommentRepr row_le := by
  constructor
  intro a b c
  unfold row_le
  omega

/-- Modelled from the spec: the recursive attach step of the §4.3 comment
thread builder (`todo!()` in the source), mirroring `build_tree` of §4.2 but
applying the score/recency sort at every level before attaching. -/
def build_comment (fuel : ℕ) (id : ℕ) (votes : ℤ) (created : ℕ)
    (by_parent : BucketMap CommentRepr) : CommentTree × BucketMap CommentRepr :=
  match fuel with
  | 0 => (.mk id votes created [], by_parent)
  | fuel' + 1 =>
      match mapRemove by_parent id with
      | (none, _) => (.mk id votes created [], by_parent)
      | (some bucket, m2) =>
          let r := (List.insertionSort row_le bucket).foldl
            (fun acc c =>
              let r1 := build_comment fuel' c.id c.sum_votes c.created_at acc.2
              (acc.1 ++ [r1.1], r1.2))
            ([], m2)
          (.mk id votes created r.1, r.2)

/-- The sibling loop of `build_comment`: build each child in order, threading
the bucket map. -/
def build_replies (fuel : ℕ) (children : List CommentRepr)
    (by_parent : BucketMap CommentRepr) :
    List CommentTree × BucketMap CommentRepr :=
  children.foldl
    (fun acc c =>
      let r1 := build_comment fuel c.id c.sum_votes c.created_at acc.2
      (acc.1 ++ [r1.1], r1.2))
    ([], by_parent)

/-- Modelled from the spec: the §4.3 comment thread builder for one review.
Rows with no parent are the review's direct comments; the rest are bucketed
by parent comment id; every sibling level is sorted by descending `vote_sum`
then ascending creation time. -/
def comment_trees (rows : List CommentRepr) : List CommentTree :=
  let roots := rows.filter fun r => r.parent.isNone
  let rest := rows.filter fun r => r.parent.isSome
  let by_parent := rest.foldl (fun m r => mapInsert m (r.parent.getD 0) r) fun _ => none
  (build_replies (rows.length + 1) (List.insertionSort row_le roots) by_parent).1

/-- The sibling comparison of the source's `comments_sorted` assertion
(`src/database/reviews.rs`): the key `(Reverse(c.sum_votes), c.created_at)`. -/
def comment_le (a b : CommentTree) : Bool :=
  decide (b.sum_votes < a.sum_votes) ||
    (decide (a.sum_votes = b.sum_votes) && decide (a.created_at ≤ b.created_at))

/-- `comments.is_sorted_by_key(|c| (Reverse(c.sum_votes), c.created_at))`:
adjacent-pair sortedness of a sibling list. -/
def is_sorted_by_key : List CommentTree → Bool
  | [] => true
  | [_] => true
  | a :: b :: rest => comment_le a b && is_sorted_by_key (b :: rest)

mutual

/-- `comments_sorted(comments)` from the `debug_assert!` in `product_reviews`
(`src/database/reviews.rs`): every sibling list is sorted by the vote/time key
and all reply lists recursively so. -/
def comments_sorted (comments : List CommentTree) : Bool :=
  is_sorted_by_key comments && all_replies_sorted comments
termination_by (sizeOf comments, 1)
decreasing_by
  apply Prod.Lex.right
  omega

/-- The `comments.iter().all(|c| comments_sorted(&c.replies))` part of
`comments_sorted`. -/
def all_replies_sorted (l : List CommentTree) : Bool :=
  match l with
  | [] => true
  | t :: rest => comments_sorted t.replies && all_replies_sorted rest
termination_by (sizeOf l, 0)
decreasing_by
  · apply Prod.Lex.left
    cases t with
    | mk i v c replies => simp [CommentTree.replies]; omega
  · apply Prod.Lex.left
    simp

end

end Shop

namespace Shop

/-- Inversion for `try_from_repr` succeeding on the `Discount` shape
`(Some(new_price), None, None)`: the branch validates `0 ≤ new_price < base`. -/
theorem try_from_repr_discount_inv {x b : ℚ} {d : Deal}
    (h : Deal.try_from_repr (some x) none none b = .ok (some d)) :
    0 < b ∧ 0 ≤ x ∧ x < b ∧ d = .Discount x := by
  simp only [Deal.try_from_repr] at h
  split_ifs at h with h1 h2 h3
  push_neg at h1 h2 h3
  simp only [Except.ok.injEq, Option.some.injEq] at h
  exact ⟨h1, h2, h3, h.symm⟩

/-- Inversion for `try_from_repr` succeeding on the `Batch` shape
`(None, Some(take), Some(pay_for))`: it validates `0 < pay_for < take`. -/
theorem try_from_repr_batch_inv {t p : ℤ} {b : ℚ} {d : Deal}
    (h : Deal.try_from_repr none (some t) (some p) b = .ok (some d)) :
    0 < b ∧ 0 < p ∧ p < t ∧ d = .Batch t.toNat p.toNat := by
  simp only [Deal.try_from_repr, Deal.toNonZeroU32] at h
  split_ifs at h with h1 h2 h3 h4
  push_neg at h1 h2
  simp only [Except.ok.injEq, Option.some.injEq] at h
  exact ⟨h1, h4, h2, h.symm⟩

/-- Inversion for `try_from_repr` succeeding on the `BatchPrice` shape
`(Some(pay), Some(take), None)`: it validates `0 < take` and
`pay·take < base`, canonicalising `take = 1` into `Discount`. The supplied
price itself is never range-checked in this branch. -/
theorem try_from_repr_batchprice_inv {x : ℚ} {t : ℤ} {b : ℚ} {d : Deal}
    (h : Deal.try_from_repr (some x) (some t) none b = .ok (some d)) :
    0 < b ∧ 0 < t ∧ x * t < b ∧
      ((t.toNat = 1 ∧ d = .Discount x) ∨ (t.toNat ≠ 1 ∧ d = .BatchPrice t.toNat x)) := by
  simp only [Deal.try_from_repr, Deal.toNonZeroU32] at h
  split_ifs at h with h1 h2 h3
  push_neg at h1 h2
  split at h
  next tt heq =>
    injection heq with heq2
    subst heq2
    by_cases h4 : t.toNat = 1
    · rw [if_pos h4] at h
      simp only [Except.ok.injEq, Option.some.injEq] at h
      exact ⟨h1, h3, h2, Or.inl ⟨h4, h.symm⟩⟩
    · rw [if_neg h4] at h
      simp only [Except.ok.injEq, Option.some.injEq] at h
      exact ⟨h1, h3, h2, Or.inr ⟨h4, h.symm⟩⟩
  next heq => exact Except.noConfusion h

/-- A successful non-`None` construction only arises from one of the three
known column shapes. -/
theorem try_from_repr_shape_inv {np : Option ℚ} {q1 q2 : Option ℤ} {b : ℚ} {d : Deal}
    (h : Deal.try_from_repr np q1 q2 b = .ok (some d)) :
    (∃ x, np = some x ∧ q1 = none ∧ q2 = none) ∨
      (∃ t p, np = none ∧ q1 = some t ∧ q2 = some p) ∨
      (∃ x t, np = some x ∧ q1 = some t ∧ q2 = none) := by
  rcases np with _ | x <;> rcases q1 with _ | t <;> rcases q2 with _ | p <;>
      simp only [Deal.try_from_repr] at h <;> split_ifs at h <;> simp_all

example : Deal.try_from_repr (some 10) none none 10 = .error .NoDiscount := by
  norm_num [Deal.try_from_repr]
example : Deal.try_from_repr (some 10) none none 9 = .error .NoDiscount := by
  norm_num [Deal.try_from_repr]
example : Deal.try_from_repr (some (-1)) (some 2) none 10
    = .ok (some (.BatchPrice 2 (-1))) := by
  norm_num [Deal.try_from_repr, Deal.toNonZeroU32]; rfl
example : Deal.average_discount (.BatchPrice 2 (-1)) 10 = 21 / 20 := by
  norm_num [Deal.average_discount]
example : Deal.try_from_repr (some (-1)) (some 1) none 10
    = .ok (some (.Discount (-1))) := by
  norm_num [Deal.try_from_repr, Deal.toNonZeroU32]
example : Deal.try_from_repr (some (-1)) none none 10 = .error .OutOfRange := by
  norm_num [Deal.try_from_repr]
example : Deal.try_from_repr none (some (-2)) (some (-1)) 1
    = .error .NoDiscount := by
  norm_num [Deal.try_from_repr]
example : Deal.average_discount Deal.free 1 = 1 := by
  norm_num [Deal.average_discount, Deal.free]
example : Deal.discounted_price (.Batch 3 2) 7 1 none = (5, 2) := by
  norm_num [Deal.discounted_price, Deal.u32Max]
example : Deal.discounted_price (.Batch 3 2) 7 1 (some 1) = (6, 1) := by
  norm_num [Deal.discounted_price, Deal.u32Max]

/-- A successful `Discount`-shape construction, given the validated facts. -/
theorem try_from_repr_discount_ok {x b : ℚ} (hb : 0 < b) (hx0 : 0 ≤ x) (hxb : x < b) :
    Deal.try_from_repr (some x) none none b = .ok (some (.Discount x)) := by
  simp only [Deal.try_from_repr]
  rw [if_neg (not_le.mpr hb), if_neg (not_lt.mpr hx0), if_neg (not_le.mpr hxb)]

/-- A successful `Batch`-shape construction, given the validated facts. -/
theorem try_from_repr_batch_ok {t p : ℤ} {b : ℚ} (hb : 0 < b) (hp : 0 < p) (hpt : p < t) :
    Deal.try_from_repr none (some t) (some p) b = .ok (some (.Batch t.toNat p.toNat)) := by
  simp only [Deal.try_from_repr, Deal.toNonZeroU32]
  rw [if_neg (not_le.mpr hb), if_neg (not_le.mpr hpt), if_pos (by omega : (0:ℤ) < t),
    if_pos hp]

/-- A successful `BatchPrice`-shape construction, given the validated facts,
including the `take = 1` canonicalisation into `Discount`. -/
theorem try_from_repr_batchprice_ok {x : ℚ} {t : ℤ} {b : ℚ} (hb : 0 < b) (ht : 0 < t)
    (hxt : x * t < b) :
    Deal.try_from_repr (some x) (some t) none b
      = .ok (some (if t.toNat = 1 then .Discount x else .BatchPrice t.toNat x)) := by
  simp only [Deal.try_from_repr, Deal.toNonZeroU32]
  rw [if_neg (not_le.mpr hb), if_neg (not_le.mpr hxt), if_pos ht]

/-- C1 counterexample: the claim is false as stated. `try_from_repr` accepts a
negative pay in the `BatchPrice` shape (no range check exists in that branch),
and the resulting deal's `average_discount` exceeds 1; moreover `free()` (and
any zero-price discount) yields exactly 1, never a value strictly below 1. -/
theorem average_discount_claim_cex :
    Deal.try_from_repr (some (-1)) (some 2) none 10 = .ok (some (.BatchPrice 2 (-1))) ∧
      1 < Deal.average_discount (.BatchPrice 2 (-1)) 10 ∧
      Deal.average_discount Deal.free 10 = 1 := by
  refine ⟨?_, ?_, ?_⟩
  · norm_num [Deal.try_from_repr, Deal.toNonZeroU32]
    rfl
  · norm_num [Deal.average_discount]
  · norm_num [Deal.average_discount, Deal.free]

/-- C1 (amended): for every Deal constructed by `try_from_repr` whose supplied
price (when present) is non-negative, `average_discount` at the originating
base price lies in the half-open interval `(0, 1]`; the value 1 is attained
exactly by zero-price (free-sample) discounts. -/
theorem average_discount_pos_le_one {np : Option ℚ} {q1 q2 : Option ℤ} {b : ℚ} {d : Deal}
    (h : Deal.try_from_repr np q1 q2 b = .ok (some d))
    (hnp : ∀ x : ℚ, np = some x → 0 ≤ x) :
    0 < Deal.average_discount d b ∧ Deal.average_discount d b ≤ 1 := by
  rcases try_from_repr_shape_inv h with ⟨x, hx, h1, h2⟩ | ⟨t, p, hx, h1, h2⟩ | ⟨x, t, hx, h1, h2⟩
  · subst hx h1 h2
    obtain ⟨hb, hx0, hxb, hd⟩ := try_from_repr_discount_inv h
    subst hd
    simp only [Deal.average_discount]
    constructor
    · have hlt : x / b < 1 := (div_lt_one hb).mpr hxb
      linarith
    · have hge : 0 ≤ x / b := div_nonneg (hnp x rfl) hb.le
      linarith
  · subst hx h1 h2
    obtain ⟨hb, hp, hpt, hd⟩ := try_from_repr_batch_inv h
    subst hd
    simp only [Deal.average_discount]
    have hp2 : 0 < p.toNat := by omega
    have hpt2 : p.toNat < t.toNat := by omega
    have htQ : (0:ℚ) < (t.toNat : ℚ) := by
      have ht0 : 0 < t.toNat := by omega
      exact_mod_cast ht0
    constructor
    · have hlt : (p.toNat : ℚ) / (t.toNat : ℚ) < 1 :=
        (div_lt_one htQ).mpr (by exact_mod_cast hpt2)
      linarith
    · have hge : 0 ≤ (p.toNat : ℚ) / (t.toNat : ℚ) := by positivity
      linarith
  · subst hx h1 h2
    obtain ⟨hb, ht, hxt, hcase⟩ := try_from_repr_batchprice_inv h
    have hx0 : 0 ≤ x := hnp x rfl
    rcases hcase with ⟨h1, hd⟩ | ⟨h1, hd⟩
    · subst hd
      have htEq : (t : ℚ) = 1 := by
        have ht1 : t = 1 := by omega
        rw [ht1]
        norm_num
      rw [htEq, mul_one] at hxt
      simp only [Deal.average_discount]
      constructor
      · have hlt : x / b < 1 := (div_lt_one hb).mpr hxt
        linarith
      · have hge : 0 ≤ x / b := div_nonneg hx0 hb.le
        linarith
    · subst hd
      simp only [Deal.average_discount]
      have htn : 1 ≤ t.toNat := by omega
      have htQ : (1:ℚ) ≤ (t.toNat : ℚ) := by exact_mod_cast htn
      have htcast : ((t.toNat : ℕ) : ℚ) = ((t : ℤ) : ℚ) := by
        exact_mod_cast congrArg (fun z : ℤ => (z : ℚ)) (Int.toNat_of_nonneg ht.le)
      have hbt : 0 < b * (t.toNat : ℚ) := mul_pos hb (lt_of_lt_of_le one_pos htQ)
      have hxtn : x * (t.toNat : ℚ) < b := by rw [htcast]; exact hxt
      have hxlt : x < b * (t.toNat : ℚ) :=
        lt_of_le_of_lt (le_mul_of_one_le_right hx0 htQ)
          (lt_of_lt_of_le hxtn (le_mul_of_one_le_right hb.le htQ))
      constructor
      · have hlt : x / (b * (t.toNat : ℚ)) < 1 := (div_lt_one hbt).mpr hxlt
        linarith
      · have hge : 0 ≤ x / (b * (t.toNat : ℚ)) := div_nonneg hx0 hbt.le
        linarith

/-- C1 witness: the amended theorem applied to the deal constructed from
`(Some(5), None, None)` against base price 10. -/
theorem average_discount_pos_le_one_witness :
    0 < Deal.average_discount (.Discount 5) 10 ∧ Deal.average_discount (.Discount 5) 10 ≤ 1 :=
  @average_discount_pos_le_one (some 5) none none 10 (.Discount 5)
    (try_from_repr_discount_ok (by norm_num) (by norm_num) (by norm_num))
    (fun x hx => by injection hx with h2; rw [← h2]; norm_num)

/-- C2 counterexample: the round-trip claim fails. `(Some(-1), Some(1), None)`
with base price 10 passes construction (the negative pay is never checked) and
canonicalises to `Discount{-1}`, whose representation `(Some(-1), None, None)`
is rejected with `OutOfRange` on reconstruction. -/
theorem database_repr_roundtrip_cex :
    Deal.try_from_repr (some (-1)) (some 1) none 10 = .ok (some (.Discount (-1))) ∧
      Deal.database_repr (.Discount (-1)) = some (some (-1), none, none) ∧
      Deal.try_from_repr (some (-1)) none none 10 = .error .OutOfRange := by
  refine ⟨?_, ?_, ?_⟩
  · norm_num [Deal.try_from_repr, Deal.toNonZeroU32]
  · rfl
  · norm_num [Deal.try_from_repr]

/-- C2 (amended): for every Deal constructed by `try_from_repr` whose supplied
price (when present) is non-negative, if `database_repr` returns a tuple then
`try_from_repr` on that tuple with the same base price reproduces the deal
exactly. (The `BatchPrice{take=1}` exception of the claim is vacuous: such
deals are already canonicalised to `Discount` at construction.) -/
theorem database_repr_roundtrip {np : Option ℚ} {q1 q2 : Option ℤ} {b : ℚ} {d : Deal}
    (h : Deal.try_from_repr np q1 q2 b = .ok (some d))
    (hnp : ∀ x : ℚ, np = some x → 0 ≤ x)
    {t3 : Option ℚ × Option ℤ × Option ℤ}
    (hr : Deal.database_repr d = some t3) :
    Deal.try_from_repr t3.1 t3.2.1 t3.2.2 b = .ok (some d) := by
  rcases try_from_repr_shape_inv h with ⟨x, hx, h1, h2⟩ | ⟨t, p, hx, h1, h2⟩ | ⟨x, t, hx, h1, h2⟩
  · subst hx h1 h2
    obtain ⟨hb, hx0, hxb, hd⟩ := try_from_repr_discount_inv h
    subst hd
    simp only [Deal.database_repr, Option.some.injEq] at hr
    subst hr
    exact try_from_repr_discount_ok hb hx0 hxb
  · subst hx h1 h2
    obtain ⟨hb, hp, hpt, hd⟩ := try_from_repr_batch_inv h
    subst hd
    simp only [Deal.database_repr] at hr
    split_ifs at hr
    simp only [Option.some.injEq] at hr
    subst hr
    exact @try_from_repr_batch_ok ((t.toNat : ℤ)) ((p.toNat : ℤ)) b hb (by omega) (by omega)
  · subst hx h1 h2
    obtain ⟨hb, ht, hxt, hcase⟩ := try_from_repr_batchprice_inv h
    have hx0 : 0 ≤ x := hnp x rfl
    rcases hcase with ⟨h1, hd⟩ | ⟨h1, hd⟩
    · subst hd
      simp only [Deal.database_repr, Option.some.injEq] at hr
      subst hr
      have hxb : x < b := by
        have ht1 : t = 1 := by omega
        rw [ht1] at hxt
        simpa using hxt
      exact try_from_repr_discount_ok hb hx0 hxb
    · subst hd
      simp only [Deal.database_repr] at hr
      split_ifs at hr
      simp only [Option.some.injEq] at hr
      subst hr
      have hxtn : x * ((t.toNat : ℤ) : ℚ) < b := by
        have hc : ((t.toNat : ℤ) : ℚ) = ((t : ℤ) : ℚ) := by
          exact_mod_cast congrArg (fun z : ℤ => (z : ℚ)) (Int.toNat_of_nonneg ht.le)
        rw [hc]
        exact hxt
      have happ := @try_from_repr_batchprice_ok x ((t.toNat : ℤ)) b hb (by omega) hxtn
      simp only [Int.toNat_natCast] at happ
      rw [if_neg h1] at happ
      exact happ

/-- C2 witness: the amended round-trip applied to the deal constructed from
`(None, Some(3), Some(2))` against base price 10. -/
theorem database_repr_roundtrip_witness :
    Deal.try_from_repr none (some 3) (some 2) 10 = .ok (some (.Batch 3 2)) :=
  @database_repr_roundtrip none (some 3) (some 2) 10 (.Batch 3 2)
    (@try_from_repr_batch_ok 3 2 10 (by norm_num) (by norm_num) (by norm_num))
    (fun x hx => by cases hx)
    (none, some 3, some 2)
    (by rfl)

/-- C4 counterexample: non-positive quantities do not produce `OutOfRange`
when the discount test fails first. `(None, Some(-2), Some(-1))` has two
non-positive quantities, yet construction returns `NoDiscount`. -/
theorem construct_error_order_cex :
    Deal.try_from_repr none (some (-2)) (some (-1)) 1 = .error .NoDiscount ∧
      Deal.try_from_repr none (some (-2)) (some (-1)) 1 ≠ .error .OutOfRange := by
  have ha : Deal.try_from_repr none (some (-2)) (some (-1)) 1 = .error .NoDiscount := by
    norm_num [Deal.try_from_repr]
  refine ⟨ha, ?_⟩
  rw [ha]
  intro hcon
  injection hcon with h2
  exact absurd h2 (by decide)

/-- C4 (amended): `base_price ≤ 0` always yields `ZeroPrice`; in the
`Discount` shape a negative price yields `OutOfRange` before the discount
test; but in the `Batch` shape the discount test precedes the range check, so
non-positive quantities failing it yield `NoDiscount`, and in the
`BatchPrice` shape a non-positive pay passing the discount test is accepted
outright. The two concrete rejections of the claim do hold: a new price of 10
against base 10 or base 9 yields `NoDiscount`. -/
theorem construct_error_classification :
    (∀ (np : Option ℚ) (q1 q2 : Option ℤ) (b : ℚ), b ≤ 0 →
        Deal.try_from_repr np q1 q2 b = .error .ZeroPrice) ∧
      (∀ x b : ℚ, 0 < b → x < 0 →
        Deal.try_from_repr (some x) none none b = .error .OutOfRange) ∧
      (∀ (t p : ℤ) (b : ℚ), 0 < b → t ≤ p →
        Deal.try_from_repr none (some t) (some p) b = .error .NoDiscount) ∧
      Deal.try_from_repr (some 0) (some 2) none 10 = .ok (some (.BatchPrice 2 0)) ∧
      Deal.try_from_repr (some 10) none none 10 = .error .NoDiscount ∧
      Deal.try_from_repr (some 10) none none 9 = .error .NoDiscount := by
  refine ⟨?_, ?_, ?_, ?_, ?_, ?_⟩
  · intro np q1 q2 b hb
    unfold Deal.try_from_repr
    rw [if_pos hb]
  · intro x b hb hx
    simp only [Deal.try_from_repr]
    rw [if_neg (not_le.mpr hb), if_pos hx]
  · intro t p b hb htp
    simp only [Deal.try_from_repr]
    rw [if_neg (not_le.mpr hb), if_pos htp]
  · norm_num [Deal.try_from_repr, Deal.toNonZeroU32]
    rfl
  · norm_num [Deal.try_from_repr]
  · norm_num [Deal.try_from_repr]

/-- C4 witness: the classification applied at concrete inputs: base price 0,
a negative price with base 1, and reversed quantities with base 1. -/
theorem construct_error_classification_witness :
    Deal.try_from_repr none none none 0 = .error .ZeroPrice ∧
      Deal.try_from_repr (some (-3)) none none 1 = .error .OutOfRange ∧
      Deal.try_from_repr none (some 2) (some 2) 1 = .error .NoDiscount :=
  ⟨construct_error_classification.1 none none none 0 le_rfl,
    construct_error_classification.2.1 (-3) 1 one_pos (by norm_num),
    construct_error_classification.2.2.1 2 2 1 one_pos le_rfl⟩

/-- C5: for every `Batch{take, pay_for}` deal, `discounted_price` computes
`uses = min(limit, units / take)` by integer division and the final price
`price_per_unit * (units - uses * (take - pay_for))` with exact (rational)
subtraction; in particular `Batch{3,2}` on 7 units yields `(5p, 2)` without a
cap and `(6p, 1)` with `limit = 1`. -/
theorem batch_discounted_price {take pf : ℕ} (_hpf : 0 < pf) (hlt : pf < take)
    (units : ℕ) (p : ℚ) (limit : Option ℕ) :
    Deal.discounted_price (.Batch take pf) units p limit
        = (p * ((units : ℚ)
              - ((min (limit.getD Deal.u32Max) (units / take) : ℕ) : ℚ)
              * ((take : ℚ) - (pf : ℚ))),
           min (limit.getD Deal.u32Max) (units / take)) ∧
      Deal.discounted_price (.Batch 3 2) 7 p none = (p * 5, 2) ∧
      Deal.discounted_price (.Batch 3 2) 7 p (some 1) = (p * 6, 1) := by
  refine ⟨?_, ?_, ?_⟩
  · simp only [Deal.discounted_price]
    have hle : min (limit.getD Deal.u32Max) (units / take) * (take - pf) ≤ units :=
      calc min (limit.getD Deal.u32Max) (units / take) * (take - pf)
          ≤ units / take * (take - pf) := Nat.mul_le_mul_right _ (min_le_right _ _)
        _ ≤ units / take * take := Nat.mul_le_mul_left _ (Nat.sub_le _ _)
        _ ≤ units := Nat.div_mul_le_self units take
    rw [Nat.cast_sub hle, Nat.cast_mul, Nat.cast_sub hlt.le]
  · norm_num [Deal.discounted_price, Deal.u32Max]
  · norm_num [Deal.discounted_price, Deal.u32Max]

/-- C5 witness: the batch pricing law applied to `Batch{3,2}`, 7 units, unit
price 1 and no cap. -/
theorem batch_discounted_price_witness :
    Deal.discounted_price (.Batch 3 2) 7 1 none = (1 * 5, 2) :=
  (@batch_discounted_price 3 2 (by norm_num) (by norm_num) 7 1 none).2.1

/-- C9: for every deal shape, price and cap, zero units give zero price and
zero uses in every branch of `discounted_price`. (In the source the `units`
parameter is `NonZeroU32`, so this is the arithmetic of the function extended
to the excluded value 0.) -/
theorem discounted_price_zero_units (d : Deal) (p : ℚ) (limit : Option ℕ) :
    Deal.discounted_price d 0 p limit = (0, 0) := by
  rcases d with np | ⟨t, pf⟩ | ⟨t, pay⟩ <;>
    simp [Deal.discounted_price, Nat.zero_div]

/-- C10: for every constructed deal, `discounted_price` never underflows its
unsigned subtractions: the use count respects the (default-unbounded) cap,
`uses * (take - pay_for) ≤ units` in the `Batch` branch together with
`pay_for < take`, and `take * uses ≤ units` in the `BatchPrice` branch. -/
theorem discounted_price_no_underflow {np : Option ℚ} {q1 q2 : Option ℤ} {b : ℚ} {d : Deal}
    (h : Deal.try_from_repr np q1 q2 b = .ok (some d))
    (units : ℕ) (p : ℚ) (limit : Option ℕ) :
    (Deal.discounted_price d units p limit).2 ≤ limit.getD Deal.u32Max ∧
      (∀ take pf : ℕ, d = .Batch take pf →
        pf < take ∧ (Deal.discounted_price d units p limit).2 * (take - pf) ≤ units) ∧
      (∀ (take : ℕ) (pay : ℚ), d = .BatchPrice take pay →
        take * (Deal.discounted_price d units p limit).2 ≤ units) := by
  refine ⟨?_, ?_, ?_⟩
  · rcases d with np2 | ⟨t, pf⟩ | ⟨t, pay⟩ <;>
      simp only [Deal.discounted_price] <;> exact min_le_left _ _
  · intro take pf hd
    subst hd
    constructor
    · rcases try_from_repr_shape_inv h with ⟨x, hx, h1, h2⟩ | ⟨t, p2, hx, h1, h2⟩ |
        ⟨x, t, hx, h1, h2⟩
      · subst hx h1 h2
        obtain ⟨_, _, _, hd⟩ := try_from_repr_discount_inv h
        exact DealImpl.noConfusion hd
      · subst hx h1 h2
        obtain ⟨_, hp, hpt, hd⟩ := try_from_repr_batch_inv h
        injection hd with hd1 hd2
        omega
      · subst hx h1 h2
        obtain ⟨_, _, _, hcase⟩ := try_from_repr_batchprice_inv h
        rcases hcase with ⟨_, hd⟩ | ⟨_, hd⟩ <;> exact DealImpl.noConfusion hd
    · simp only [Deal.discounted_price]
      calc min (limit.getD Deal.u32Max) (units / take) * (take - pf)
          ≤ units / take * (take - pf) := Nat.mul_le_mul_right _ (min_le_right _ _)
        _ ≤ units / take * take := Nat.mul_le_mul_left _ (Nat.sub_le _ _)
        _ ≤ units := Nat.div_mul_le_self units take
  · intro take pay hd
    subst hd
    simp only [Deal.discounted_price]
    calc take * min (limit.getD Deal.u32Max) (units / take)
        ≤ take * (units / take) := Nat.mul_le_mul_left _ (min_le_right _ _)
      _ = units / take * take := Nat.mul_comm _ _
      _ ≤ units := Nat.div_mul_le_self units take

/-- C10 witness: the no-underflow bounds applied to the deal constructed from
`(None, Some(3), Some(2))` with 7 units, unit price 1 and no cap. -/
theorem discounted_price_no_underflow_witness :
    (Deal.discounted_price (.Batch 3 2) 7 1 none).2 ≤ (none : Option ℕ).getD Deal.u32Max ∧
      2 < 3 ∧ (Deal.discounted_price (.Batch 3 2) 7 1 none).2 * (3 - 2) ≤ 7 :=
  have h : Deal.try_from_repr none (some 3) (some 2) 10 = .ok (some (.Batch 3 2)) :=
    @try_from_repr_batch_ok 3 2 10 (by norm_num) (by norm_num) (by norm_num)
  have hmain := @discounted_price_no_underflow none (some 3) (some 2) 10 (.Batch 3 2) h 7 1 none
  ⟨hmain.1, (hmain.2.1 3 2 rfl).1, (hmain.2.1 3 2 rfl).2⟩

/-- C8 counterexample: `Amount::with_unit` performs no validation, so an
`Amount` with a negative quantity is obtainable through a public constructor. -/
theorem with_unit_unvalidated_cex :
    Amount.with_unit (-1) "kg" = ⟨-1, some "kg"⟩ ∧
      (Amount.with_unit (-1) "kg").quantity < 0 := by
  constructor
  · rfl
  · norm_num [Amount.with_unit]

/-- C8 (amended): every `Amount` obtained through `new` or `discrete` has a
non-negative quantity which is an integer whenever the unit is absent;
`with_unit` enforces nothing. -/
theorem amount_new_discrete_invariant :
    (∀ (q : ℚ) (u : Option String) (a : Amount), Amount.new q u = some a →
        0 ≤ a.quantity ∧ (a.unit = none → a.quantity.den = 1)) ∧
      (∀ n : ℕ, 0 ≤ (Amount.discrete n).quantity ∧ (Amount.discrete n).quantity.den = 1) := by
  constructor
  · intro q u a h
    unfold Amount.new at h
    split_ifs at h with h1 h2 h3
    · injection h with h4
      subst h4
      refine ⟨not_lt.mp h1, fun hu => ?_⟩
      have hu2 : u = none := hu
      rw [hu2] at h2
      simp at h2
    · injection h with h4
      subst h4
      exact ⟨not_lt.mp h1, fun _ => h3⟩
  · intro n
    constructor
    · simp [Amount.discrete]
    · simp [Amount.discrete]

/-- Unfolding `build_tree` at zero fuel. -/
theorem build_tree_zero (id : ℕ) (name : String) (m : BucketMap (ℕ × String)) :
    build_tree 0 id name m = (.mk id name [], m) := rfl

/-- Unfolding `build_tree` when the node has no bucket. -/
theorem build_tree_fuel_none {m : BucketMap (ℕ × String)} {id : ℕ} (fuel : ℕ)
    (name : String) (hm : m id = none) :
    build_tree (fuel + 1) id name m = (.mk id name [], m) := by
  simp [build_tree, mapRemove, hm]

/-- Unfolding `build_tree` when the node's bucket is present: pop it and build
the children in order on the shrunk map. -/
theorem build_tree_fuel_some {m : BucketMap (ℕ × String)} {id : ℕ}
    {bucket : List (ℕ × String)} (fuel : ℕ) (name : String) (hm : m id = some bucket) :
    build_tree (fuel + 1) id name m
      = (.mk id name (build_forest fuel bucket (mapRemove m id).2).1,
         (build_forest fuel bucket (mapRemove m id).2).2) := by
  simp [build_tree, mapRemove, hm, build_forest]

/-- The sibling fold of `build_forest`, restated over an arbitrary
accumulator. -/
theorem build_forest_go (fuel : ℕ) (children : List (ℕ × String)) :
    ∀ (a : List CategoryTree) (m : BucketMap (ℕ × String)),
      children.foldl
        (fun acc c =>
          let r1 := build_tree fuel c.1 c.2 acc.2
          (acc.1 ++ [r1.1], r1.2)) (a, m)
      = (a ++ (build_forest fuel children m).1, (build_forest fuel children m).2) := by
  induction children with
  | nil =>
      intro a m
      simp [build_forest]
  | cons c rest ih =>
      intro a m
      simp only [List.foldl_cons, build_forest]
      rw [ih, ih]
      simp

/-- `build_forest` on a non-empty sibling list: build the head, then the rest
on the threaded map. -/
theorem build_forest_cons (fuel : ℕ) (c : ℕ × String) (rest : List (ℕ × String))
    (m : BucketMap (ℕ × String)) :
    build_forest fuel (c :: rest) m
      = ((build_tree fuel c.1 c.2 m).1
            :: (build_forest fuel rest (build_tree fuel c.1 c.2 m).2).1,
          (build_forest fuel rest (build_tree fuel c.1 c.2 m).2).2) := by
  simp only [build_forest, List.foldl_cons]
  rw [build_forest_go]
  rfl

/-- `build_forest` on an empty sibling list. -/
theorem build_forest_nil (fuel : ℕ) (m : BucketMap (ℕ × String)) :
    build_forest fuel [] m = ([], m) := rfl

/-- Every tree built by `build_tree` carries the requested id and name. -/
theorem build_tree_fst_shape (fuel : ℕ) (id : ℕ) (name : String)
    (m : BucketMap (ℕ × String)) :
    ∃ subs, (build_tree fuel id name m).1 = .mk id name subs := by
  cases fuel with
  | zero => exact ⟨[], rfl⟩
  | succ fuel' =>
      rcases hm : m id with _ | bucket
      · rw [build_tree_fuel_none fuel' name hm]
        exact ⟨[], rfl⟩
      · rw [build_tree_fuel_some fuel' name hm]
        exact ⟨_, rfl⟩

/-- A bucket map all of whose buckets are sorted by name. -/
def MapSorted (m : BucketMap (ℕ × String)) : Prop :=
  ∀ (k : ℕ) (b : List (ℕ × String)), m k = some b → b.Pairwise (fun a c => a.2 ≤ c.2)

/-- Removing a bucket preserves bucket sortedness. -/
theorem mapRemove_mapSorted {m : BucketMap (ℕ × String)} (k : ℕ) (h : MapSorted m) :
    MapSorted (mapRemove m k).2 := by
  intro k2 b hb
  simp only [mapRemove] at hb
  split at hb
  · exact absurd hb (by simp)
  · exact h k2 b hb

/-- If every bucket of the map is sorted, `build_forest` produces trees whose
names follow the sibling list, all recursively sorted, over a map that stays
sorted. -/
theorem build_forest_sorted (fuel : ℕ)
    (htree : ∀ (id : ℕ) (name : String) (m : BucketMap (ℕ × String)), MapSorted m →
      TreeSorted (build_tree fuel id name m).1 ∧ MapSorted (build_tree fuel id name m).2) :
    ∀ (children : List (ℕ × String)) (m : BucketMap (ℕ × String)), MapSorted m →
      (∀ t ∈ (build_forest fuel children m).1, TreeSorted t) ∧
        MapSorted (build_forest fuel children m).2 ∧
        (build_forest fuel children m).1.map CategoryTree.name = children.map Prod.snd := by
  intro children
  induction children with
  | nil =>
      intro m hm
      rw [build_forest_nil]
      exact ⟨by simp, hm, by simp⟩
  | cons c rest ih =>
      intro m hm
      rw [build_forest_cons]
      obtain ⟨ht1, hm1⟩ := htree c.1 c.2 m hm
      obtain ⟨ha, hb, hc⟩ := ih _ hm1
      refine ⟨?_, hb, ?_⟩
      · intro t htmem
        rcases List.mem_cons.mp htmem with rfl | hmem
        · exact ht1
        · exact ha t hmem
      · obtain ⟨subs, hshape⟩ := build_tree_fst_shape fuel c.1 c.2 m
        simp only [List.map_cons, hc, hshape, CategoryTree.name]

/-- If every bucket of the map is sorted, `build_tree` returns a recursively
sorted tree and leaves the map sorted. -/
theorem build_tree_sorted :
    ∀ (fuel : ℕ) (id : ℕ) (name : String) (m : BucketMap (ℕ × String)), MapSorted m →
      TreeSorted (build_tree fuel id name m).1 ∧ MapSorted (build_tree fuel id name m).2 := by
  intro fuel
  induction fuel with
  | zero =>
      intro id name m hm
      rw [build_tree_zero]
      exact ⟨TreeSorted.mk _ _ _ (by simp) (by simp), hm⟩
  | succ fuel' ih =>
      intro id name m hm
      rcases hmid : m id with _ | bucket
      · rw [build_tree_fuel_none fuel' name hmid]
        exact ⟨TreeSorted.mk _ _ _ (by simp) (by simp), hm⟩
      · rw [build_tree_fuel_some fuel' name hmid]
        have hm2 : MapSorted (mapRemove m id).2 := mapRemove_mapSorted id hm
        obtain ⟨ha, hb, hc⟩ := build_forest_sorted fuel' ih bucket _ hm2
        constructor
        · refine TreeSorted.mk _ _ _ ?_ ha
          have hbucket : (bucket.map Prod.snd).Pairwise (· ≤ ·) :=
            List.pairwise_map.mpr (hm id bucket hmid)
          rw [← hc] at hbucket
          exact List.pairwise_map.mp hbucket
        · exact hb

/-- Appending to the possibly missing bucket, as `mapInsert` does at the
looked-up key. -/
def bucketApp {α : Type} (o : Option (List α)) (l : List α) : Option (List α) :=
  match o, l with
  | none, [] => none
  | o, l => some (o.getD [] ++ l)

/-- The bucket at `k` after folding `mapInsert` over the rows: the initial
bucket extended by the row payloads whose parent key is `k`, in input order. -/
theorem foldl_mapInsert_apply (rows : List CategoryRepr) :
    ∀ (m0 : BucketMap (ℕ × String)) (k : ℕ),
      (rows.foldl (fun m r => mapInsert m (r.parent.getD 0) (r.id, r.name)) m0) k
        = bucketApp (m0 k)
            ((rows.filter fun r => r.parent.getD 0 == k).map fun r => (r.id, r.name)) := by
  induction rows with
  | nil =>
      intro m0 k
      simp only [List.foldl_nil, List.filter_nil, List.map_nil]
      rcases m0 k with _ | b <;> simp [bucketApp]
  | cons r rest ih =>
      intro m0 k
      simp only [List.foldl_cons]
      rw [ih]
      by_cases hk : r.parent.getD 0 = k
      · have hfil : (List.filter (fun r => r.parent.getD 0 == k) (r :: rest))
            = r :: List.filter (fun r => r.parent.getD 0 == k) rest := by
          simp [List.filter_cons, hk]
        rw [hfil]
        have hmi : mapInsert m0 (r.parent.getD 0) (r.id, r.name) k
            = some ((m0 k).getD [] ++ [(r.id, r.name)]) := by
          simp [mapInsert, hk]
        rw [hmi]
        rcases m0 k with _ | b <;> simp [bucketApp]
      · have hfil : (List.filter (fun r => r.parent.getD 0 == k) (r :: rest))
            = List.filter (fun r => r.parent.getD 0 == k) rest := by
          simp [List.filter_cons, hk]
        rw [hfil]
        have hmi : mapInsert m0 (r.parent.getD 0) (r.id, r.name) k = m0 k := by
          simp only [mapInsert]
          rw [if_neg (fun hcon => hk hcon.symm)]
        rw [hmi]

/-- Rows filtered to one parent key are name-sorted whenever the rows are
sorted by `(parent, name)` and every parent is present. -/
theorem filtered_names_sorted (rows : List CategoryRepr) (hpair : rows.Pairwise repr_le)
    (hsome : ∀ r ∈ rows, r.parent.isSome = true) (k : ℕ) :
    ((rows.filter fun r => r.parent.getD 0 == k).map fun r => (r.id, r.name)).Pairwise
      (fun a c => a.2 ≤ c.2) := by
  rw [List.pairwise_map]
  have h1 : (rows.filter fun r => r.parent.getD 0 == k).Pairwise repr_le :=
    hpair.filter _
  have h2 : ∀ r ∈ rows.filter fun r => r.parent.getD 0 == k, r.parent = some k := by
    intro r hr
    have hmem := List.mem_filter.mp hr
    have hsome2 := hsome r hmem.1
    have hk : r.parent.getD 0 = k := by simpa using hmem.2
    rcases hpr : r.parent with _ | v
    · rw [hpr] at hsome2
      simp at hsome2
    · rw [hpr] at hk
      simp at hk
      rw [hk]
  refine h1.imp_of_mem ?_
  intro a c ha hc hle
  rcases hle with hlt | ⟨_, hname⟩
  · rw [h2 a ha, h2 c hc] at hlt
    simp only [parent_lt] at hlt
    omega
  · exact hname

/-- C3 counterexample: a dangling parent reference does not abort
construction. The row with parent 99 (an id that appears nowhere) is bucketed
under the missing parent, the bucket is never popped, and `category_trees`
returns successfully with the row silently dropped. -/
theorem dangling_parent_cex :
    category_trees [⟨none, "A", 1⟩, ⟨some 99, "B", 2⟩] = some [.mk 1 "A" []] := by
  rfl

/-- C3 (amended): a row whose parent id references no other row is silently
ignored: construction succeeds without any error and the row appears neither
as a root nor inside any subtree. -/
theorem dangling_parent_ignored (p : ℕ) (hp : p ≠ 1) :
    category_trees [⟨none, "A", 1⟩, ⟨some p, "B", 2⟩] = some [.mk 1 "A" []] := by
  have hp2 : ¬ ((1:ℕ) = p) := fun hcon => hp hcon.symm
  simp [category_trees, build_forest, build_tree, mapInsert, mapRemove, hp2]

/-- C3 witness: the amended statement at the concrete dangling parent 99. -/
theorem dangling_parent_ignored_witness :
    category_trees [⟨none, "A", 1⟩, ⟨some 99, "B", 2⟩] = some [.mk 1 "A" []] :=
  dangling_parent_ignored 99 (by decide)

/-- C6 counterexample: with rows pre-sorted only so that parentless rows come
first (as the claim demands) the builder does not sort the roots by name:
names `["B", "A"]` come out in input order, not the claimed `["A", "B"]`. -/
theorem category_trees_unsorted_cex :
    category_trees [⟨none, "B", 1⟩, ⟨none, "A", 2⟩, ⟨some 2, "C", 3⟩]
        = some [.mk 1 "B" [], .mk 2 "A" [.mk 3 "C" []]] ∧
      (category_trees [⟨none, "B", 1⟩, ⟨none, "A", 2⟩, ⟨some 2, "C", 3⟩]).map
          (fun ts => ts.map CategoryTree.name) ≠ some ["A", "B"] := by
  constructor
  · rfl
  · intro hcon
    have : (["B", "A"] : List String) = ["A", "B"] := by
      have h1 : (category_trees [⟨none, "B", 1⟩, ⟨none, "A", 2⟩, ⟨some 2, "C", 3⟩]).map
          (fun ts => ts.map CategoryTree.name) = some ["B", "A"] := rfl
      rw [h1] at hcon
      injection hcon
    exact absurd this (by decide)

/-- C6 (amended): the builder relies on the full `(parent NULLS FIRST, name)`
pre-sort that the SQL `ORDER BY` supplies and the source's `debug_assert!`
checks, not merely on parentless rows coming first. Under that pre-sort the
roots and every subcategory list come out sorted by name, and the claim's
example rows, once correctly pre-sorted, produce exactly the claimed forest. -/
theorem category_trees_sorted :
    (∀ (rows : List CategoryRepr) (ts : List CategoryTree),
        rows.Pairwise repr_le → category_trees rows = some ts →
        ts.Pairwise (fun a c => a.name ≤ c.name) ∧ ∀ t ∈ ts, TreeSorted t) ∧
      category_trees [⟨none, "A", 2⟩, ⟨none, "B", 1⟩, ⟨some 2, "C", 3⟩]
        = some [.mk 2 "A" [.mk 3 "C" []], .mk 1 "B" []] := by
  constructor
  · intro rows ts hpair h
    simp only [category_trees] at h
    split at h
    case isFalse => exact Option.noConfusion h
    case isTrue hall =>
    injection h with h2
    subst h2
    have hrestPair : (rows.dropWhile fun r => r.parent.isNone).Pairwise repr_le :=
      hpair.sublist (List.dropWhile_sublist _)
    have hsome : ∀ r ∈ rows.dropWhile fun r => r.parent.isNone,
        r.parent.isSome = true := fun r hr => (List.all_eq_true.mp hall) r hr
    have hms : MapSorted ((rows.dropWhile fun r => r.parent.isNone).foldl
        (fun m r => mapInsert m (r.parent.getD 0) (r.id, r.name)) fun _ => none) := by
      intro k b hb
      rw [foldl_mapInsert_apply] at hb
      have hsorted := filtered_names_sorted _ hrestPair hsome k
      rcases hfil : ((rows.dropWhile fun r => r.parent.isNone).filter
          fun r => r.parent.getD 0 == k).map (fun r => (r.id, r.name)) with _ | ⟨x, xs⟩
      · rw [hfil] at hb
        exact absurd hb (by simp [bucketApp])
      · rw [hfil] at hb
        simp only [bucketApp, Option.getD_none, List.nil_append, Option.some.injEq] at hb
        rw [hfil] at hsorted
        rwa [← hb]
    obtain ⟨ha, _, hc⟩ := build_forest_sorted (rows.length + 1)
      (build_tree_sorted (rows.length + 1))
      ((rows.takeWhile fun r => r.parent.isNone).map fun r => (r.id, r.name)) _ hms
    refine ⟨?_, ha⟩
    have hroots : ((rows.takeWhile fun r => r.parent.isNone).map
        fun r => (r.id, r.name)).Pairwise (fun a c => a.2 ≤ c.2) := by
      rw [List.pairwise_map]
      have hsub : (rows.takeWhile fun r => r.parent.isNone).Pairwise repr_le :=
        hpair.sublist (List.takeWhile_sublist _)
      refine hsub.imp_of_mem ?_
      intro a c hamem hcmem hle
      have hpa : a.parent = none := by
        have := List.mem_takeWhile_imp hamem
        simpa [Option.isNone_iff_eq_none] using this
      have hpc : c.parent = none := by
        have := List.mem_takeWhile_imp hcmem
        simpa [Option.isNone_iff_eq_none] using this
      rcases hle with hlt | ⟨_, hname⟩
      · rw [hpa, hpc] at hlt
        simp [parent_lt] at hlt
      · exact hname
    have hts : ((build_forest (rows.length + 1)
        ((rows.takeWhile fun r => r.parent.isNone).map fun r => (r.id, r.name))
        ((rows.dropWhile fun r => r.parent.isNone).foldl
          (fun m r => mapInsert m (r.parent.getD 0) (r.id, r.name))
          fun _ => none)).1.map CategoryTree.name).Pairwise (· ≤ ·) := by
      rw [hc]
      exact List.pairwise_map.mpr hroots
    exact List.pairwise_map.mp hts
  · rfl

/-- C6 witness: the sortedness law applied to the correctly pre-sorted
three-row example. -/
theorem category_trees_sorted_witness :
    ([.mk 2 "A" [.mk 3 "C" []], .mk 1 "B" []] : List CategoryTree).Pairwise
        (fun a c => a.name ≤ c.name) ∧
      ∀ t ∈ ([.mk 2 "A" [.mk 3 "C" []], .mk 1 "B" []] : List CategoryTree), TreeSorted t :=
  category_trees_sorted.1 [⟨none, "A", 2⟩, ⟨none, "B", 1⟩, ⟨some 2, "C", 3⟩]
    [.mk 2 "A" [.mk 3 "C" []], .mk 1 "B" []]
    (by
      refine List.Pairwise.cons ?_ (List.Pairwise.cons ?_ (List.pairwise_singleton _ _))
      · intro r hr
        rcases List.mem_cons.mp hr with rfl | hr2
        · right
          refine ⟨rfl, ?_⟩
          rw [String.le_iff_toList_le]
          decide
        · rcases List.mem_singleton.mp hr2 with rfl
          left
          simp [parent_lt]
      · intro r hr
        rcases List.mem_singleton.mp hr with rfl
        left
        simp [parent_lt])
    rfl

/-- Unfolding `build_comment` at zero fuel. -/
theorem build_comment_zero (id : ℕ) (v : ℤ) (c : ℕ) (m : BucketMap CommentRepr) :
    build_comment 0 id v c m = (.mk id v c [], m) := rfl

/-- Unfolding `build_comment` when the comment has no reply bucket. -/
theorem build_comment_fuel_none {m : BucketMap CommentRepr} {id : ℕ} (fuel : ℕ)
    (v : ℤ) (c : ℕ) (hm : m id = none) :
    build_comment (fuel + 1) id v c m = (.mk id v c [], m) := by
  simp [build_comment, mapRemove, hm]

/-- Unfolding `build_comment` when the reply bucket is present: pop it, sort
it by the vote/time key, and build the replies in order on the shrunk map. -/
theorem build_comment_fuel_some {m : BucketMap CommentRepr} {id : ℕ}
    {bucket : List CommentRepr} (fuel : ℕ) (v : ℤ) (c : ℕ) (hm : m id = some bucket) :
    build_comment (fuel + 1) id v c m
      = (.mk id v c
            (build_replies fuel (List.insertionSort row_le bucket) (mapRemove m id).2).1,
          (build_replies fuel (List.insertionSort row_le bucket) (mapRemove m id).2).2) := by
  simp [build_comment, mapRemove, hm, build_replies]

/-- The sibling fold of `build_replies`, restated over an arbitrary
accumulator. -/
theorem build_replies_go (fuel : ℕ) (children : List CommentRepr) :
    ∀ (a : List CommentTree) (m : BucketMap CommentRepr),
      children.foldl
        (fun acc c =>
          let r1 := build_comment fuel c.id c.sum_votes c.created_at acc.2
          (acc.1 ++ [r1.1], r1.2)) (a, m)
      = (a ++ (build_replies fuel children m).1, (build_replies fuel children m).2) := by
  induction children with
  | nil =>
      intro a m
      simp [build_replies]
  | cons c rest ih =>
      intro a m
      simp only [List.foldl_cons, build_replies]
      rw [ih, ih]
      simp

/-- `build_replies` on a non-empty sibling list. -/
theorem build_replies_cons (fuel : ℕ) (c : CommentRepr) (rest : List CommentRepr)
    (m : BucketMap CommentRepr) :
    build_replies fuel (c :: rest) m
      = ((build_comment fuel c.id c.sum_votes c.created_at m).1
            :: (build_replies fuel rest
                (build_comment fuel c.id c.sum_votes c.created_at m).2).1,
          (build_replies fuel rest
            (build_comment fuel c.id c.sum_votes c.created_at m).2).2) := by
  simp only [build_replies, List.foldl_cons]
  rw [build_replies_go]
  rfl

/-- `build_replies` on an empty sibling list. -/
theorem build_replies_nil (fuel : ℕ) (m : BucketMap CommentRepr) :
    build_replies fuel [] m = ([], m) := rfl

/-- Every tree built by `build_comment` carries the requested id, vote sum
and creation time. -/
theorem build_comment_fst_shape (fuel : ℕ) (id : ℕ) (v : ℤ) (c : ℕ)
    (m : BucketMap CommentRepr) :
    ∃ rs, (build_comment fuel id v c m).1 = .mk id v c rs := by
  cases fuel with
  | zero => exact ⟨[], rfl⟩
  | succ fuel' =>
      rcases hm : m id with _ | bucket
      · rw [build_comment_fuel_none fuel' v c hm]
        exact ⟨[], rfl⟩
      · rw [build_comment_fuel_some fuel' v c hm]
        exact ⟨_, rfl⟩

/-- Equation lemma for `comments_sorted`. -/
theorem comments_sorted_eq (l : List CommentTree) :
    comments_sorted l = (is_sorted_by_key l && all_replies_sorted l) := by
  unfold comments_sorted
  rfl

/-- `all_replies_sorted` on the empty list. -/
theorem all_replies_sorted_nil : all_replies_sorted [] = true := by
  unfold all_replies_sorted
  rfl

/-- `all_replies_sorted` on a non-empty list. -/
theorem all_replies_sorted_cons (t : CommentTree) (rest : List CommentTree) :
    all_replies_sorted (t :: rest)
      = (comments_sorted t.replies && all_replies_sorted rest) := by
  conv_lhs => unfold all_replies_sorted

/-- `all_replies_sorted` is the conjunction of `comments_sorted` over the
reply lists of the members. -/
theorem all_replies_sorted_iff (l : List CommentTree) :
    all_replies_sorted l = true ↔ ∀ t ∈ l, comments_sorted t.replies = true := by
  induction l with
  | nil => simp [all_replies_sorted_nil]
  | cons t rest ih =>
      rw [all_replies_sorted_cons, Bool.and_eq_true, ih]
      simp

/-- Adjacent sortedness follows from pairwise sortedness of siblings. -/
theorem is_sorted_by_key_of_pairwise :
    ∀ l : List CommentTree, l.Pairwise (fun a b => comment_le a b = true) →
      is_sorted_by_key l = true := by
  intro l
  induction l with
  | nil => intro _; rfl
  | cons a rest ih =>
      intro h
      cases rest with
      | nil => rfl
      | cons b rest2 =>
          have hab : comment_le a b = true :=
            List.rel_of_pairwise_cons h (List.mem_cons_self b rest2)
          have htail := ih h.of_cons
          simp [is_sorted_by_key, hab]
          exact htail

/-- The vote/time sibling order on bare keys. -/
def key_le (x y : ℤ × ℕ) : Prop :=
  y.1 < x.1 ∨ (x.1 = y.1 ∧ x.2 ≤ y.2)

/-- `comment_le` holds between trees whose keys are related by `key_le`. -/
theorem comment_le_of_key {t1 t2 : CommentTree}
    (h : key_le (t1.sum_votes, t1.created_at) (t2.sum_votes, t2.created_at)) :
    comment_le t1 t2 = true := by
  simp only [comment_le, Bool.or_eq_true, Bool.and_eq_true, decide_eq_true_eq]
  exact h

/-- The keys of the trees produced by `build_replies` are exactly the keys of
the sibling rows, in order. -/
theorem build_replies_keys (fuel : ℕ) :
    ∀ (children : List CommentRepr) (m : BucketMap CommentRepr),
      (build_replies fuel children m).1.map (fun t => (t.sum_votes, t.created_at))
        = children.map fun r => (r.sum_votes, r.created_at) := by
  intro children
  induction children with
  | nil =>
      intro m
      rw [build_replies_nil]
      rfl
  | cons c rest ih =>
      intro m
      rw [build_replies_cons]
      obtain ⟨rs, hshape⟩ := build_comment_fst_shape fuel c.id c.sum_votes c.created_at m
      rw [List.map_cons, hshape, ih]
      rfl

/-- Every tree in a `build_replies` output is a `build_comment` output. -/
theorem build_replies_mem (fuel : ℕ) :
    ∀ (children : List CommentRepr) (m : BucketMap CommentRepr),
      ∀ t ∈ (build_replies fuel children m).1,
        ∃ (id : ℕ) (v : ℤ) (c : ℕ) (m2 : BucketMap CommentRepr),
          t = (build_comment fuel id v c m2).1 := by
  intro children
  induction children with
  | nil =>
      intro m t ht
      rw [build_replies_nil] at ht
      exact absurd ht (by simp)
  | cons c rest ih =>
      intro m t ht
      rw [build_replies_cons] at ht
      rcases List.mem_cons.mp ht with rfl | hmem
      · exact ⟨c.id, c.sum_votes, c.created_at, m, rfl⟩
      · exact ih _ t hmem

/-- Sibling rows sorted by the vote/time key yield a `comments_sorted` output
from `build_replies`, provided each single tree has recursively sorted
replies. -/
theorem build_replies_comments_sorted (fuel : ℕ)
    (hP : ∀ (id : ℕ) (v : ℤ) (c : ℕ) (m : BucketMap CommentRepr),
      comments_sorted (build_comment fuel id v c m).1.replies = true) :
    ∀ (children : List CommentRepr) (m : BucketMap CommentRepr),
      children.Pairwise row_le →
      comments_sorted (build_replies fuel children m).1 = true := by
  intro children m hpair
  rw [comments_sorted_eq, Bool.and_eq_true]
  constructor
  · apply is_sorted_by_key_of_pairwise
    have hkeys : ((build_replies fuel children m).1.map
          fun t => (t.sum_votes, t.created_at)).Pairwise key_le := by
      rw [build_replies_keys]
      rw [List.pairwise_map]
      exact hpair.imp (fun h => h)
    have := List.pairwise_map.mp hkeys
    exact this.imp fun h => comment_le_of_key h
  · rw [all_replies_sorted_iff]
    intro t ht
    obtain ⟨id, v, c, m2, rfl⟩ := build_replies_mem fuel children m t ht
    exact hP id v c m2

/-- Every tree built by `build_comment` has recursively sorted replies. -/
theorem build_comment_replies_sorted :
    ∀ (fuel : ℕ) (id : ℕ) (v : ℤ) (c : ℕ) (m : BucketMap CommentRepr),
      comments_sorted (build_comment fuel id v c m).1.replies = true := by
  intro fuel
  induction fuel with
  | zero =>
      intro id v c m
      rw [build_comment_zero]
      simp [CommentTree.replies, comments_sorted_eq, is_sorted_by_key,
        all_replies_sorted_nil]
  | succ fuel' ih =>
      intro id v c m
      rcases hm : m id with _ | bucket
      · rw [build_comment_fuel_none fuel' v c hm]
        simp [CommentTree.replies, comments_sorted_eq, is_sorted_by_key,
          all_replies_sorted_nil]
      · rw [build_comment_fuel_some fuel' v c hm]
        simp only [CommentTree.replies]
        exact build_replies_comments_sorted fuel' ih _ _
          (List.sorted_insertionSort row_le bucket)

/-- C7: every comment tree produced by the (spec-modelled) thread builder
satisfies the source's `comments_sorted` assertion — siblings at every level
ordered by descending vote sum then ascending creation time; in particular
two equal-vote siblings order by creation time and a higher-vote sibling
created later still sorts first. -/
theorem comment_trees_sorted :
    (∀ rows : List CommentRepr, comments_sorted (comment_trees rows) = true) ∧
      (comment_trees [⟨1, none, 3, 5⟩, ⟨2, none, 3, 2⟩, ⟨3, none, 5, 9⟩]).map
          CommentTree.id = [3, 2, 1] := by
  constructor
  · intro rows
    simp only [comment_trees]
    exact build_replies_comments_sorted _ (build_comment_replies_sorted _) _ _
      (List.sorted_insertionSort row_le _)
  · rfl

/-- C8 witness: the invariant applied to `Amount::new(2, None)` and
`Amount::discrete(4)`. -/
theorem amount_new_discrete_invariant_witness :
    (0 ≤ (⟨2, none⟩ : Amount).quantity ∧
      ((⟨2, none⟩ : Amount).unit = none → (⟨2, none⟩ : Amount).quantity.den = 1)) ∧
      (0 ≤ (Amount.discrete 4).quantity ∧ (Amount.discrete 4).quantity.den = 1) :=
  have h : Amount.new 2 none = some ⟨2, none⟩ := by norm_num [Amount.new]
  ⟨amount_new_discrete_invariant.1 2 none ⟨2, none⟩ h,
    amount_new_discrete_invariant.2 4⟩

end Shop
